import Mathlib

/-!
Verification of the motion-controller logic of a small ggez sandbox program
(`src/main.rs`).  The program animates a circle moving horizontally with
wraparound; its state is a position, a signed step (`offset_x`), and the
timestamp of the last accepted update.

Modelling choices:
* `f32` values are modelled as exact rationals (`ℚ`); the spec treats them
  as real numbers and all scenario values are exactly representable.
* Rust's `%` on floats is the truncated remainder
  `x - n * trunc (x / n)`; `fRem` embeds it, with `ratTrunc` the
  toward-zero integer truncation.
* `Instant` / `Duration` are modelled as natural-number milliseconds;
  Rust's `now - last_update` on `Instant` is `Nat` subtraction here (the
  program only compares the difference against the update interval).
* `event::quit` is modelled as a boolean "quit requested" output of the
  key handler; rendering (`draw`) does not touch any state field.
-/

namespace Sandbox

/-- `const SCREEN_SIZE: (u32, u32) = (800, 400);` -/
def SCREEN_SIZE : ℕ × ℕ := (800, 400)

/-- `const UPDATES_PER_SECOND: f32 = 10.0;` -/
def UPDATES_PER_SECOND : ℚ := 10

/-- Toward-zero truncation of a rational to an integer, the semantics of
Rust's `as`-cast from float to integer and the quotient implicit in the
float remainder operator.  `Rat.den` is positive, and `Int` division of
nonnegative operands is ordinary truncation. -/
def ratTrunc (q : ℚ) : ℤ :=
  if 0 ≤ q.num then q.num / (q.den : ℤ) else -((-q.num) / (q.den : ℤ))

/-- `const MILLIS_PER_UPDATE: u64 = (1.0 / UPDATES_PER_SECOND * 1000.0) as u64;`
(the `f32` computation is exact here: `1/10 * 1000 = 100`). -/
def MILLIS_PER_UPDATE : ℕ := (ratTrunc (1 / UPDATES_PER_SECOND * 1000)).toNat

/-- Rust's `%` on floats: truncated remainder, `x - n * trunc (x / n)`. -/
def fRem (x n : ℚ) : ℚ := x - n * (ratTrunc (x / n) : ℚ)

/-- `ModuloSigned::modulo`, from `src/main.rs`:
`(self.clone() % n.clone() + n.clone()) % n`. -/
def modulo (x n : ℚ) : ℚ := fRem (fRem x n + n) n

/-- `struct MainState { pos_x: f32, offset_x: f32, last_update: Instant }`. -/
structure MainState where
  pos_x : ℚ
  offset_x : ℚ
  last_update : ℕ
deriving DecidableEq, Repr

/-- `MainState::new`: `pos_x = 0.0, offset_x = 10.0, last_update = Instant::now()`
(the creation instant is a parameter of the model). -/
def MainState.new (now : ℕ) : MainState :=
  { pos_x := 0, offset_x := 10, last_update := now }

/-- `EventHandler::update` for `MainState` (the tick), with the engine's
`Instant::now()` passed explicitly:
if `now - self.last_update >= Duration::from_millis(MILLIS_PER_UPDATE)`
then `pos_x = pos_x.modulo(SCREEN_SIZE.0 as f32) + offset_x` and
`last_update = now`, else nothing. -/
def MainState.update (s : MainState) (now : ℕ) : MainState :=
  if MILLIS_PER_UPDATE ≤ now - s.last_update then
    { s with
      pos_x := modulo s.pos_x ((SCREEN_SIZE.1 : ℕ) : ℚ) + s.offset_x
      last_update := now }
  else
    s

/-- `EventHandler::draw` for `MainState`: renders the circle at `pos_x` and
yields; it assigns no field of the state, so its state effect is the
identity. -/
def MainState.draw (s : MainState) : MainState := s

/-- The keys the handler distinguishes; every other ggez `KeyCode` variant
falls into the wildcard arm and is represented by `Other`. -/
inductive KeyCode where
  | Escape : KeyCode
  | Left : KeyCode
  | Right : KeyCode
  | Other : ℕ → KeyCode
deriving DecidableEq, Repr

/-- `EventHandler::key_down_event` for `MainState`:
`Escape => event::quit(ctx)` (modelled as the boolean output),
`Left => offset_x = -offset_x.abs()`, `Right => offset_x = offset_x.abs()`,
`_ => ()`. -/
def MainState.key_down_event (s : MainState) (k : KeyCode) : MainState × Bool :=
  match k with
  | KeyCode.Escape => (s, true)
  | KeyCode.Left => ({ s with offset_x := -|s.offset_x| }, false)
  | KeyCode.Right => ({ s with offset_x := |s.offset_x| }, false)
  | KeyCode.Other _ => (s, false)

/-- Modelled from the spec: §4.1's `set_direction(sign)` operation, which
the source does not define as a function (the spec uses it to name the key
handler's effect): `step = sign * abs(step)`. -/
def setDirectionSpec (s : MainState) (sign : ℚ) : MainState :=
  { s with offset_x := sign * |s.offset_x| }

/-- States reachable from startup under the engine's callbacks: the initial
state, ticks at arbitrary instants, draws, and key events. -/
inductive Reachable : MainState → Prop where
  | init (now : ℕ) : Reachable (MainState.new now)
  | tick (s : MainState) (now : ℕ) : Reachable s → Reachable (s.update now)
  | render (s : MainState) : Reachable s → Reachable (MainState.draw s)
  | key (s : MainState) (k : KeyCode) :
      Reachable s → Reachable (s.key_down_event k).1

/-! ## Arithmetic of the signed modulo -/

/-- On a nonnegative rational, toward-zero truncation is the floor. -/
theorem ratTrunc_of_nonneg {q : ℚ} (h : 0 ≤ q) : ratTrunc q = ⌊q⌋ := by
  rw [ratTrunc, if_pos (Rat.num_nonneg.mpr h), Rat.floor_def]

/-- On a negative rational, toward-zero truncation is the ceiling. -/
theorem ratTrunc_of_neg {q : ℚ} (h : q < 0) : ratTrunc q = ⌈q⌉ := by
  rw [ratTrunc, if_neg (by simpa using not_le.mpr h)]
  have hceil : ⌈q⌉ = -⌊-q⌋ := by rw [Int.floor_neg, neg_neg]
  rw [hceil, Rat.floor_def, Rat.neg_den, Rat.neg_num]

/-- The truncation differs from its argument by strictly less than one in
either direction. -/
theorem sub_ratTrunc_bounds (q : ℚ) :
    -1 < q - (ratTrunc q : ℚ) ∧ q - (ratTrunc q : ℚ) < 1 := by
  rcases le_or_lt 0 q with h | h
  · rw [ratTrunc_of_nonneg h]
    constructor
    · have := Int.floor_le q
      linarith
    · have := Int.lt_floor_add_one q
      linarith
  · rw [ratTrunc_of_neg h]
    constructor
    · have := Int.ceil_lt_add_one q
      linarith
    · have := Int.le_ceil q
      linarith

/-- On nonnegative input with positive modulus, the truncated remainder
agrees with the fractional-part remainder. -/
theorem fRem_of_nonneg {x n : ℚ} (hn : 0 < n) (hx : 0 ≤ x) :
    fRem x n = n * Int.fract (x / n) := by
  have hq : (0 : ℚ) ≤ x / n := div_nonneg hx hn.le
  have hx_eq : n * (x / n) = x := by
    field_simp
  rw [fRem, ratTrunc_of_nonneg hq, Int.fract, mul_sub, hx_eq]

/-- For a positive modulus, the program's signed modulo is `n` times the
fractional part of `x / n` — a form from which nonnegativity, the upper
bound, and periodicity all follow. -/
theorem modulo_eq_fract (x n : ℚ) (hn : 0 < n) :
    modulo x n = n * Int.fract (x / n) := by
  set q : ℚ := x / n with hq_def
  have hn' : n ≠ 0 := hn.ne'
  have hx_eq : x = n * q := by
    rw [hq_def, mul_comm, div_mul_cancel₀ _ hn']
  set t : ℤ := ratTrunc q with ht_def
  have hb := sub_ratTrunc_bounds q
  have hr_eq : fRem x n + n = n * (q - t + 1) := by
    rw [fRem, ← hq_def, ← ht_def, hx_eq]
    ring
  have hr_pos : (0 : ℚ) < fRem x n + n := by
    rw [hr_eq]
    have : (0 : ℚ) < q - t + 1 := by linarith [hb.1]
    positivity
  have h2 : modulo x n = n * Int.fract ((fRem x n + n) / n) :=
    fRem_of_nonneg hn hr_pos.le
  have hdiv : (fRem x n + n) / n = q - t + 1 := by
    rw [hr_eq, mul_div_cancel_left₀ _ hn']
  have hfract : Int.fract (q - (t : ℚ) + 1) = Int.fract q := by
    have h3 : q - (t : ℚ) + 1 = q - ((t - 1 : ℤ) : ℚ) := by
      push_cast
      ring
    rw [h3, Int.fract_sub_int]
  rw [h2, hdiv, hfract]

/-- The signed modulo lands in `[0, n)` for positive `n`. -/
theorem modulo_mem (x n : ℚ) (hn : 0 < n) :
    0 ≤ modulo x n ∧ modulo x n < n := by
  rw [modulo_eq_fract x n hn]
  constructor
  · exact mul_nonneg hn.le (Int.fract_nonneg _)
  · calc n * Int.fract (x / n) < n * 1 :=
          (mul_lt_mul_left hn).mpr (Int.fract_lt_one _)
      _ = n := mul_one n

/-- Concrete evaluation of the signed modulo through a supplied floor of
`x / n`. -/
theorem modulo_eq_sub_of_floor (x n : ℚ) (z : ℤ) (hn : 0 < n)
    (h1 : (z : ℚ) ≤ x / n) (h2 : x / n < (z : ℚ) + 1) :
    modulo x n = x - n * z := by
  have hf : ⌊x / n⌋ = z := by
    rw [Int.floor_eq_iff]
    exact ⟨h1, h2⟩
  have hx_eq : n * (x / n) = x := by
    field_simp
  rw [modulo_eq_fract x n hn, Int.fract, hf, mul_sub, hx_eq]

/-- The update interval evaluates to 100 milliseconds. -/
theorem MILLIS_PER_UPDATE_eq : MILLIS_PER_UPDATE = 100 := by
  have h : (1 / UPDATES_PER_SECOND * 1000 : ℚ) = ((100 : ℤ) : ℚ) := by
    norm_num [UPDATES_PER_SECOND]
  rw [MILLIS_PER_UPDATE, h, ratTrunc_of_nonneg (by norm_num), Int.floor_intCast]
  rfl

/-- The wraparound boundary is the screen width, 800. -/
theorem screen_width : ((SCREEN_SIZE.1 : ℕ) : ℚ) = 800 := by
  norm_num [SCREEN_SIZE]

theorem modulo_795_800 : modulo 795 800 = 795 := by
  have h := modulo_eq_sub_of_floor 795 800 0 (by norm_num) (by norm_num) (by norm_num)
  rw [h]
  norm_num

theorem modulo_zero_800 : modulo 0 800 = 0 := by
  have h := modulo_eq_sub_of_floor 0 800 0 (by norm_num) (by norm_num) (by norm_num)
  rw [h]
  norm_num

/-- Evaluation of one qualifying tick from the spec's §8 scenario state. -/
theorem update_795_eval :
    MainState.update ⟨795, 10, 0⟩ 100 = ⟨805, 10, 100⟩ := by
  rw [MainState.update, if_pos (by rw [MILLIS_PER_UPDATE_eq]; decide)]
  simp [screen_width, modulo_795_800]
  norm_num

/-! ## Claims -/

/-- C1: for every state and timestamp `now`, if `now - last_update` is at
least the fixed interval (1000 / updates_per_second ms, i.e. 100 ms at 10
updates per second), the tick sets `pos_x` to
`signed_modulo(pos_x, boundary) + step` and `last_update` to `now`, each
exactly once (the resulting state is exactly that); otherwise the tick is
a no-op. -/
theorem tick_gate_correct (s : MainState) (now : ℕ) :
    MILLIS_PER_UPDATE = 100 ∧
    (MILLIS_PER_UPDATE ≤ now - s.last_update →
      s.update now =
        { pos_x := modulo s.pos_x ((SCREEN_SIZE.1 : ℕ) : ℚ) + s.offset_x
          offset_x := s.offset_x
          last_update := now }) ∧
    (now - s.last_update < MILLIS_PER_UPDATE → s.update now = s) := by
  refine ⟨MILLIS_PER_UPDATE_eq, ?_, ?_⟩
  · intro h
    rw [MainState.update, if_pos h]
  · intro h
    rw [MainState.update, if_neg (not_le.mpr h)]

/-- C1 witness: both branches of the gate at concrete inputs. -/
theorem tick_gate_correct_witness :
    (MILLIS_PER_UPDATE ≤ 100 - (0 : ℕ) ∧
      MainState.update ⟨795, 10, 0⟩ 100 =
        { pos_x := modulo 795 ((SCREEN_SIZE.1 : ℕ) : ℚ) + 10
          offset_x := 10
          last_update := 100 }) ∧
    ((99 : ℕ) - 0 < MILLIS_PER_UPDATE ∧
      MainState.update ⟨795, 10, 0⟩ 99 = ⟨795, 10, 0⟩) := by
  constructor
  · exact ⟨by rw [MILLIS_PER_UPDATE_eq],
      (tick_gate_correct ⟨795, 10, 0⟩ 100).2.1 (by rw [MILLIS_PER_UPDATE_eq]; decide)⟩
  · exact ⟨by rw [MILLIS_PER_UPDATE_eq]; decide,
      (tick_gate_correct ⟨795, 10, 0⟩ 99).2.2 (by rw [MILLIS_PER_UPDATE_eq]; decide)⟩

/-- C2: for every value `v` and positive modulus `n`, the signed modulo
equals `(v % n + n) % n` (with `%` the truncated remainder) and lies in
`[0, n)`. -/
theorem signed_modulo_contract (v n : ℚ) (hn : 0 < n) :
    modulo v n = fRem (fRem v n + n) n ∧
      0 ≤ modulo v n ∧ modulo v n < n :=
  ⟨rfl, (modulo_mem v n hn).1, (modulo_mem v n hn).2⟩

/-- C2 witness at `v = -5`, `n = 800`. -/
theorem signed_modulo_contract_witness :
    (0 : ℚ) < 800 ∧
      (modulo (-5) 800 = fRem (fRem (-5) 800 + 800) 800 ∧
        0 ≤ modulo (-5) 800 ∧ modulo (-5) 800 < 800) :=
  ⟨by norm_num, signed_modulo_contract (-5) 800 (by norm_num)⟩

/-- C4: a tick whose elapsed time is below the interval changes no field
of the state. -/
theorem tick_below_interval_noop (s : MainState) (now : ℕ)
    (h : now - s.last_update < MILLIS_PER_UPDATE) :
    s.update now = s := by
  rw [MainState.update, if_neg (not_le.mpr h)]

/-- C4 witness: 50 ms elapsed is below the 100 ms interval. -/
theorem tick_below_interval_noop_witness :
    (50 - (MainState.new 0).last_update < MILLIS_PER_UPDATE) ∧
      (MainState.new 0).update 50 = MainState.new 0 :=
  ⟨by rw [MILLIS_PER_UPDATE_eq]; decide,
    tick_below_interval_noop (MainState.new 0) 50
      (by rw [MILLIS_PER_UPDATE_eq]; decide)⟩

/-- C5: the direction keys set the step to `sign * abs(step)` (`-1` for
Left, `+1` for Right), and applying the same direction twice yields the
same state as applying it once. -/
theorem set_direction_effect_idempotent (s : MainState) :
    (s.key_down_event KeyCode.Left).1.offset_x = (-1) * |s.offset_x| ∧
    (s.key_down_event KeyCode.Right).1.offset_x = 1 * |s.offset_x| ∧
    ((s.key_down_event KeyCode.Left).1.key_down_event KeyCode.Left).1 =
      (s.key_down_event KeyCode.Left).1 ∧
    ((s.key_down_event KeyCode.Right).1.key_down_event KeyCode.Right).1 =
      (s.key_down_event KeyCode.Right).1 := by
  refine ⟨by simp [MainState.key_down_event], by simp [MainState.key_down_event], ?_, ?_⟩
  · simp [MainState.key_down_event, abs_neg, abs_abs]
  · simp [MainState.key_down_event, abs_abs]

/-- C6: values differing by an integer multiple of a positive modulus have
equal signed modulos. -/
theorem signed_modulo_congr (v1 v2 n : ℚ) (hn : 0 < n) (k : ℤ)
    (hk : v1 - v2 = (k : ℚ) * n) :
    modulo v1 n = modulo v2 n := by
  rw [modulo_eq_fract v1 n hn, modulo_eq_fract v2 n hn]
  have hdiv : v1 / n = v2 / n + (k : ℚ) := by
    have h1 : v1 = v2 + (k : ℚ) * n := by linarith
    rw [h1, add_div, mul_div_assoc, div_self hn.ne', mul_one]
  rw [hdiv, Int.fract_add_int]

/-- C6 witness: `795` and `-5` differ by `1 * 800`. -/
theorem signed_modulo_congr_witness :
    ((0 : ℚ) < 800 ∧ (795 : ℚ) - (-5) = ((1 : ℤ) : ℚ) * 800) ∧
      modulo 795 800 = modulo (-5) 800 :=
  ⟨⟨by norm_num, by norm_num⟩,
    signed_modulo_congr 795 (-5) 800 (by norm_num) 1 (by norm_num)⟩

/-- C7: the key handler maps Escape to the quit signal, Left to
`set_direction(-1)`, Right to `set_direction(+1)`, and leaves the state
unchanged for every other key. -/
theorem key_down_dispatch (s : MainState) :
    s.key_down_event KeyCode.Escape = (s, true) ∧
    s.key_down_event KeyCode.Left = (setDirectionSpec s (-1), false) ∧
    s.key_down_event KeyCode.Right = (setDirectionSpec s 1, false) ∧
    ∀ c : ℕ, s.key_down_event (KeyCode.Other c) = (s, false) := by
  refine ⟨rfl, ?_, ?_, fun c => rfl⟩
  · simp [MainState.key_down_event, setDirectionSpec, neg_one_mul]
  · simp [MainState.key_down_event, setDirectionSpec, one_mul]

/-- C8: from `pos_x = 795`, `step = 10`, `boundary = 800`, one qualifying
tick produces `pos_x = signed_modulo(795, 800) + 10 = 805`, which is not
re-wrapped into `[0, 800)`. -/
theorem tick_can_exceed_boundary :
    MILLIS_PER_UPDATE ≤ 100 - (0 : ℕ) ∧
    (MainState.update ⟨795, 10, 0⟩ 100).pos_x =
      modulo 795 ((SCREEN_SIZE.1 : ℕ) : ℚ) + 10 ∧
    modulo 795 ((SCREEN_SIZE.1 : ℕ) : ℚ) + 10 = 805 ∧
    ¬ (MainState.update ⟨795, 10, 0⟩ 100).pos_x < ((SCREEN_SIZE.1 : ℕ) : ℚ) := by
  refine ⟨by rw [MILLIS_PER_UPDATE_eq], ?_, ?_, ?_⟩
  · rw [update_795_eval, screen_width, modulo_795_800]
    norm_num
  · rw [screen_width, modulo_795_800]
    norm_num
  · rw [update_795_eval, screen_width]
    norm_num

/-- C9: `signed_modulo(-5, 800) = 795`. -/
theorem signed_modulo_neg_five : modulo (-5) 800 = 795 := by
  have h := modulo_eq_sub_of_floor (-5) 800 (-1) (by norm_num) (by norm_num)
    (by norm_num)
  rw [h]
  norm_num

/-- C10: every callback (tick, draw, key-down for any key) preserves the
absolute value of the step, and every reachable state carries the startup
magnitude `|offset_x| = 10`. -/
theorem step_magnitude_invariant :
    (∀ (s : MainState) (now : ℕ), |(s.update now).offset_x| = |s.offset_x|) ∧
    (∀ s : MainState, |(MainState.draw s).offset_x| = |s.offset_x|) ∧
    (∀ (s : MainState) (k : KeyCode),
      |(s.key_down_event k).1.offset_x| = |s.offset_x|) ∧
    (∀ s : MainState, Reachable s → |s.offset_x| = 10) := by
  have hupd : ∀ (s : MainState) (now : ℕ),
      (s.update now).offset_x = s.offset_x := by
    intro s now
    rw [MainState.update]
    split <;> rfl
  have hkey : ∀ (s : MainState) (k : KeyCode),
      |(s.key_down_event k).1.offset_x| = |s.offset_x| := by
    intro s k
    cases k <;> simp [MainState.key_down_event, abs_neg, abs_abs]
  refine ⟨fun s now => by rw [hupd], fun s => rfl, hkey, ?_⟩
  intro s hs
  induction hs with
  | init now => norm_num [MainState.new]
  | tick s now hr ih => rw [hupd]; exact ih
  | render s hr ih => exact ih
  | key s k hr ih => rw [hkey]; exact ih

/-- C10 witness: the invariant at the startup state. -/
theorem step_magnitude_invariant_witness :
    |(MainState.new 0).offset_x| = 10 :=
  step_magnitude_invariant.2.2.2 (MainState.new 0) (Reachable.init 0)

/-- C3 counterexample: the state reached from startup by pressing Left is
reachable, and the tick at 100 ms from it drives `pos_x` to `-10`, outside
`[0, boundary)` — so `0 ≤ pos_x < boundary` does not hold after every
update. -/
theorem update_pos_invariant_counterexample :
    Reachable (((MainState.new 0).key_down_event KeyCode.Left).1) ∧
    ¬ (0 ≤ ((((MainState.new 0).key_down_event KeyCode.Left).1).update 100).pos_x) := by
  constructor
  · exact Reachable.key _ _ (Reachable.init 0)
  · have hkey : ((MainState.new 0).key_down_event KeyCode.Left).1 =
        (⟨0, -10, 0⟩ : MainState) := by
      simp [MainState.new, MainState.key_down_event]
    rw [hkey, MainState.update, if_pos (by rw [MILLIS_PER_UPDATE_eq]; decide)]
    simp [screen_width, modulo_zero_800]

/-- C3 (amended): after every tick in which the gate fires, the position
minus the step lies in `[0, boundary)`; the position itself can leave that
range by up to `|step|`. -/
theorem update_pos_sub_step_mem (s : MainState) (now : ℕ)
    (h : MILLIS_PER_UPDATE ≤ now - s.last_update) :
    0 ≤ (s.update now).pos_x - s.offset_x ∧
      (s.update now).pos_x - s.offset_x < ((SCREEN_SIZE.1 : ℕ) : ℚ) := by
  rw [MainState.update, if_pos h]
  have hmem := modulo_mem s.pos_x ((SCREEN_SIZE.1 : ℕ) : ℚ)
    (by rw [screen_width]; norm_num)
  constructor
  · simp only [add_sub_cancel_right]
    exact hmem.1
  · simp only [add_sub_cancel_right]
    exact hmem.2

/-- C3 amended witness: one qualifying tick from the §8 scenario state. -/
theorem update_pos_sub_step_mem_witness :
    0 ≤ (MainState.update ⟨795, 10, 0⟩ 100).pos_x - 10 ∧
      (MainState.update ⟨795, 10, 0⟩ 100).pos_x - 10 < ((SCREEN_SIZE.1 : ℕ) : ℚ) :=
  update_pos_sub_step_mem ⟨795, 10, 0⟩ 100 (by rw [MILLIS_PER_UPDATE_eq]; decide)

end Sandbox
